import Mathlib

/-!
Verification of the core numerical pipeline of `reanalysis.py`:
peak detection with half-maximum intervals (`two_peak_half_intervals`),
window construction (`build_window`), and the log-log Tc grid scan
(`run_loglog_tc_scan`).

Modelling conventions.  Python floats are embedded as exact rationals `ℚ`;
`math.log` is an abstract parameter `log : ℚ → ℚ` (no property below depends
on the values of the logarithm, only on where the code calls it).  The float
sentinel `-inf` used for `r_squared` is embedded as `⊥ : WithBot ℚ`, so
`math.isfinite(r2)` becomes `r2 ≠ ⊥`.  Python `round` (round half to
even) is modelled by `pyRound`.
-/

/-- Python 3 `round` to the nearest integer, ties to the even integer. -/
def pyRound (q : ℚ) : ℤ :=
  if q - ⌊q⌋ < 1/2 then ⌊q⌋
  else if 1/2 < q - ⌊q⌋ then ⌊q⌋ + 1
  else if ⌊q⌋ % 2 = 0 then ⌊q⌋ else ⌊q⌋ + 1

/-- One row of the Tc scan table: the tuple
`(tc, beta, r_squared, slope, intercept, n_points, is_valid)`
appended to `results` in `run_loglog_tc_scan`. -/
structure FitRecord where
  tc : ℚ
  beta : ℚ
  r_squared : WithBot ℚ
  slope : ℚ
  intercept : ℚ
  n_points : ℕ
  is_valid : Bool
deriving DecidableEq, Repr

/-- The `(t, m)` pairs kept by the sample loop of `run_loglog_tc_scan`:
`for t, m in zip(temps, mags): if t < tc and t >= t_min and t <= t_max and m > 0.0`. -/
def fitPairs (temps mags : List ℚ) (t_min t_max tc : ℚ) : List (ℚ × ℚ) :=
  (temps.zip mags).filter fun p =>
    decide (p.1 < tc ∧ t_min ≤ p.1 ∧ p.1 ≤ t_max ∧ 0 < p.2)

/-- `x_vals`: for each kept pair, `math.log(tc - t)`. -/
def xVals (log : ℚ → ℚ) (temps mags : List ℚ) (t_min t_max tc : ℚ) : List ℚ :=
  (fitPairs temps mags t_min t_max tc).map fun p => log (tc - p.1)

/-- `y_vals`: for each kept pair, `math.log(m)`. -/
def yVals (log : ℚ → ℚ) (temps mags : List ℚ) (t_min t_max tc : ℚ) : List ℚ :=
  (fitPairs temps mags t_min t_max tc).map fun p => log p.2

/-- `denom = n * sum_x2 - sum_x * sum_x` of `run_loglog_tc_scan`. -/
def fitDenom (log : ℚ → ℚ) (temps mags : List ℚ) (t_min t_max tc : ℚ) : ℚ :=
  ((xVals log temps mags t_min t_max tc).length : ℚ) *
      ((xVals log temps mags t_min t_max tc).map fun x => x * x).sum -
    (xVals log temps mags t_min t_max tc).sum * (xVals log temps mags t_min t_max tc).sum

/-- `slope = (n * sum_xy - sum_x * sum_y) / denom`. -/
def fitSlope (log : ℚ → ℚ) (temps mags : List ℚ) (t_min t_max tc : ℚ) : ℚ :=
  (((xVals log temps mags t_min t_max tc).length : ℚ) *
        (((xVals log temps mags t_min t_max tc).zip (yVals log temps mags t_min t_max tc)).map
          fun p => p.1 * p.2).sum -
      (xVals log temps mags t_min t_max tc).sum * (yVals log temps mags t_min t_max tc).sum) /
    fitDenom log temps mags t_min t_max tc

/-- `intercept = (sum_y - slope * sum_x) / n`. -/
def fitIntercept (log : ℚ → ℚ) (temps mags : List ℚ) (t_min t_max tc : ℚ) : ℚ :=
  ((yVals log temps mags t_min t_max tc).sum -
      fitSlope log temps mags t_min t_max tc * (xVals log temps mags t_min t_max tc).sum) /
    ((xVals log temps mags t_min t_max tc).length : ℚ)

/-- `ss_tot = sum((y - mean_y) ** 2 for y in y_vals)` where `mean_y = sum_y / n`. -/
def fitSsTot (log : ℚ → ℚ) (temps mags : List ℚ) (t_min t_max tc : ℚ) : ℚ :=
  ((yVals log temps mags t_min t_max tc).map fun y =>
    (y - (yVals log temps mags t_min t_max tc).sum /
      ((xVals log temps mags t_min t_max tc).length : ℚ)) ^ 2).sum

/-- `ss_res = sum((y - (slope * x + intercept)) ** 2 for x, y in zip(x_vals, y_vals))`. -/
def fitSsRes (log : ℚ → ℚ) (temps mags : List ℚ) (t_min t_max tc : ℚ) : ℚ :=
  (((xVals log temps mags t_min t_max tc).zip (yVals log temps mags t_min t_max tc)).map
    fun p => (p.2 - (fitSlope log temps mags t_min t_max tc * p.1 +
      fitIntercept log temps mags t_min t_max tc)) ^ 2).sum

/-- `r2 = 1.0 if ss_tot == 0.0 else 1.0 - ss_res / ss_tot`. -/
def fitR2 (log : ℚ → ℚ) (temps mags : List ℚ) (t_min t_max tc : ℚ) : ℚ :=
  if fitSsTot log temps mags t_min t_max tc = 0 then 1
  else 1 - fitSsRes log temps mags t_min t_max tc / fitSsTot log temps mags t_min t_max tc

/-- The record `run_loglog_tc_scan` appends to `results` for one candidate `tc`:
the two sentinel branches (`len(x_vals) < 4`, `denom == 0.0`) and the
least-squares branch. -/
def fitRecordFor (log : ℚ → ℚ) (temps mags : List ℚ) (t_min t_max tc : ℚ) : FitRecord :=
  if (xVals log temps mags t_min t_max tc).length < 4 then
    ⟨tc, 0, ⊥, 0, 0, (xVals log temps mags t_min t_max tc).length, false⟩
  else if fitDenom log temps mags t_min t_max tc = 0 then
    ⟨tc, 0, ⊥, 0, 0, (xVals log temps mags t_min t_max tc).length, false⟩
  else
    ⟨tc, fitSlope log temps mags t_min t_max tc,
      (fitR2 log temps mags t_min t_max tc : WithBot ℚ),
      fitSlope log temps mags t_min t_max tc,
      fitIntercept log temps mags t_min t_max tc,
      (xVals log temps mags t_min t_max tc).length,
      decide (0 < fitSlope log temps mags t_min t_max tc) &&
        decide (0 < fitR2 log temps mags t_min t_max tc) &&
        decide (fitR2 log temps mags t_min t_max tc ≤ 1)⟩

/-- `n_steps = int(round((tc_max - tc_min) / tc_step))`. -/
def nSteps (tc_min tc_max tc_step : ℚ) : ℤ := pyRound ((tc_max - tc_min) / tc_step)

/-- The candidates `tc = tc_min + i * tc_step` for `i in range(n_steps + 1)`. -/
def rawCandidates (tc_min tc_max tc_step : ℚ) : List ℚ :=
  (List.range (nSteps tc_min tc_max tc_step + 1).toNat).map fun (i : ℕ) =>
    tc_min + (i : ℚ) * tc_step

/-- The candidates surviving `if tc < tc_min or tc > tc_max: continue`. -/
def keptCandidates (tc_min tc_max tc_step : ℚ) : List ℚ :=
  (rawCandidates tc_min tc_max tc_step).filter fun tc => decide (¬ (tc < tc_min ∨ tc_max < tc))

/-- One step of the best-fit selection loop of `run_loglog_tc_scan`:
skip the record unless `is_valid`, `math.isfinite(r2)` and `r2 > 0.0` hold,
otherwise replace the current best when `best is None or r2 > best[2]`. -/
def bestStep (best : Option FitRecord) (r : FitRecord) : Option FitRecord :=
  if ¬ r.is_valid = true ∨ r.r_squared = ⊥ ∨ r.r_squared ≤ 0 then best
  else
    match best with
    | none => some r
    | some b => if b.r_squared < r.r_squared then some r else some b

/-- `run_loglog_tc_scan(temps, mags, t_min, t_max, tc_min, tc_max, tc_step)`:
the full table of per-candidate records and the selected best record. -/
def run_loglog_tc_scan (log : ℚ → ℚ) (temps mags : List ℚ)
    (t_min t_max tc_min tc_max tc_step : ℚ) : List FitRecord × Option FitRecord :=
  ((keptCandidates tc_min tc_max tc_step).map (fitRecordFor log temps mags t_min t_max),
    ((keptCandidates tc_min tc_max tc_step).map
      (fitRecordFor log temps mags t_min t_max)).foldl bestStep none)

/-- A record survives the filter of the best-selection loop:
`is_valid`, finite `r_squared`, and `r_squared > 0`. -/
def qualifies (r : FitRecord) : Prop :=
  r.is_valid = true ∧ r.r_squared ≠ ⊥ ∧ 0 < r.r_squared

instance : DecidablePred qualifies := fun r => by
  unfold qualifies
  infer_instance

/-- `mean_left = sum(left_slice) / len(left_slice)` with `left_slice = values[:i]`
in `two_peak_half_intervals`. -/
def meanLeft (values : List ℚ) (i : ℕ) : ℚ :=
  (values.take i).sum / ((values.take i).length : ℚ)

/-- The strength check of `two_peak_half_intervals`: with `max_k = min(3, i)`,
every `values[i - k]` for `k in range(max_k + 1)` must exceed `mean_left`. -/
def strongEnough (values : List ℚ) (i : ℕ) : Bool :=
  (List.range (min 3 i + 1)).all fun k => decide (meanLeft values i < values.getD (i - k) 0)

/-- The list `peaks` gathered by `two_peak_half_intervals` before ranking:
`[0]` for a single-element series, otherwise the indices `i` passing the
local-maximum, positivity, `i >= 5` and strength checks, in increasing order. -/
def rawPeaks (values : List ℚ) : List ℕ :=
  if values.length = 1 then [0]
  else
    (List.range values.length).filter fun i =>
      decide ((i = 0 ∨ values.getD (i - 1) 0 ≤ values.getD i 0) ∧
        (i = values.length - 1 ∨ values.getD (i + 1) 0 ≤ values.getD i 0) ∧
        0 < values.getD i 0 ∧ 5 ≤ i ∧ strongEnough values i = true)

/-- The first-occurrence deduplication loop
`for idx in peaks: if idx not in dedup: dedup.append(idx)`. -/
def dedupFirst (acc : List ℕ) : List ℕ → List ℕ
  | [] => acc
  | x :: xs => if x ∈ acc then dedupFirst acc xs else dedupFirst (acc ++ [x]) xs

/-- `peaks` after `peaks.sort(key=..., reverse=True)` (stable, descending by
value) and first-occurrence deduplication. -/
def rankedPeaks (values : List ℚ) : List ℕ :=
  dedupFirst []
    (List.insertionSort (fun a b => values.getD b 0 ≤ values.getD a 0) (rawPeaks values))

/-- `while left_idx > 0 and values[left_idx - 1] >= half: left_idx -= 1`. -/
def walkLeft (values : List ℚ) (half : ℚ) : ℕ → ℕ
  | 0 => 0
  | i + 1 => if half ≤ values.getD i 0 then walkLeft values half i else i + 1

/-- `while right_idx < last and values[right_idx + 1] >= half: right_idx += 1`. -/
def walkRight (values : List ℚ) (half : ℚ) (last i : ℕ) : ℕ :=
  if h : i < last ∧ half ≤ values.getD (i + 1) 0 then walkRight values half last (i + 1)
  else i
termination_by last - i
decreasing_by
  have : i < last := h.1
  omega

/-- The interval written into a slot for peak index `idx`: `None` when the
peak value is non-positive, otherwise the temperatures at the two
half-maximum walk endpoints. -/
def slotInterval (values temps : List ℚ) (idx : ℕ) : Option (ℚ × ℚ) :=
  if values.getD idx 0 ≤ 0 then none
  else
    some (temps.getD (walkLeft values (values.getD idx 0 / 2) idx) 0,
      temps.getD (walkRight values (values.getD idx 0 / 2) (values.length - 1) idx) 0)

/-- `two_peak_half_intervals(values, temps)`: the two optional half-maximum
intervals for the top two ranked peaks (`peaks[:2]`). -/
def two_peak_half_intervals (values temps : List ℚ) : List (Option (ℚ × ℚ)) :=
  if values.length = 0 then [none, none]
  else
    [match ((rankedPeaks values).take 2).get? 0 with
      | none => none
      | some idx => slotInterval values temps idx,
      match ((rankedPeaks values).take 2).get? 1 with
      | none => none
      | some idx => slotInterval values temps idx]

/-- The `lefts` list collected by `build_window` from the present intervals. -/
def windowLefts (intervals : List (Option (ℚ × ℚ))) : List ℚ :=
  intervals.filterMap fun it => it.map Prod.fst

/-- The `rights` list collected by `build_window` from the present intervals. -/
def windowRights (intervals : List (Option (ℚ × ℚ))) : List ℚ :=
  intervals.filterMap fun it => it.map Prod.snd

/-- `build_window(intervals)`: `None` when no interval is present, otherwise
`(t_env_min, t_env_max, tc_ov_min, tc_ov_max)` with the overlap falling back
to the envelope when `tc_ov_min <= tc_ov_max` fails. -/
def build_window (intervals : List (Option (ℚ × ℚ))) : Option (ℚ × ℚ × ℚ × ℚ) :=
  match windowLefts intervals, windowRights intervals with
  | l0 :: ls, r0 :: rs =>
    if ls.foldl max l0 ≤ rs.foldl min r0 then
      some (ls.foldl min l0, rs.foldl max r0, ls.foldl max l0, rs.foldl min r0)
    else
      some (ls.foldl min l0, rs.foldl max r0, ls.foldl min l0, rs.foldl max r0)
  | _, _ => none

section ScanTheorems

variable (log : ℚ → ℚ) (temps mags : List ℚ) (t_min t_max tc_min tc_max tc_step tc : ℚ)

/-- C3: for every candidate tc, the fit-sample set used by the Tc scan is exactly
the pairs `(log (tc - t), log m)` taken, in input order, over those `(t, m)` pairs
of the temperature/magnetization sequences satisfying `t_min ≤ t ≤ t_max`,
`t < tc`, and `m > 0`; hence both logarithm arguments are strictly positive for
every included sample. -/
theorem tc_scan_fit_samples :
    fitPairs temps mags t_min t_max tc =
      (temps.zip mags).filter
        (fun p => decide (t_min ≤ p.1 ∧ p.1 ≤ t_max ∧ p.1 < tc ∧ 0 < p.2)) ∧
    xVals log temps mags t_min t_max tc =
      (fitPairs temps mags t_min t_max tc).map (fun p => log (tc - p.1)) ∧
    yVals log temps mags t_min t_max tc =
      (fitPairs temps mags t_min t_max tc).map (fun p => log p.2) ∧
    ∀ p ∈ fitPairs temps mags t_min t_max tc, 0 < tc - p.1 ∧ 0 < p.2 := by
  refine ⟨?_, rfl, rfl, ?_⟩
  · refine List.filter_congr ?_
    intro p _
    simp only [decide_eq_decide]
    tauto
  · intro p hp
    rw [fitPairs, List.mem_filter, decide_eq_true_eq] at hp
    exact ⟨sub_pos.mpr hp.2.1, hp.2.2.2.2⟩

/-- C3 witness: the sample characterization instantiated at a concrete input. -/
theorem tc_scan_fit_samples_witness :
    fitPairs [0, 1, 2, 3] [11, 9, 7, 5] 0 10 5 =
      ([(0:ℚ), 1, 2, 3].zip [11, 9, 7, 5]).filter
        (fun p => decide ((0:ℚ) ≤ p.1 ∧ p.1 ≤ 10 ∧ p.1 < 5 ∧ 0 < p.2)) ∧
    xVals id [0, 1, 2, 3] [11, 9, 7, 5] 0 10 5 =
      (fitPairs [0, 1, 2, 3] [11, 9, 7, 5] 0 10 5).map (fun p => id (5 - p.1)) ∧
    yVals id [0, 1, 2, 3] [11, 9, 7, 5] 0 10 5 =
      (fitPairs [0, 1, 2, 3] [11, 9, 7, 5] 0 10 5).map (fun p => id p.2) ∧
    ∀ p ∈ fitPairs [0, 1, 2, 3] [11, 9, 7, 5] 0 10 5, 0 < 5 - p.1 ∧ 0 < p.2 :=
  tc_scan_fit_samples id [0, 1, 2, 3] [11, 9, 7, 5] 0 10 5

/-- C2: for every candidate tc that the Tc scan emits, if fewer than 4 samples
qualify or the least-squares denominator is zero, the emitted record is exactly
`(tc, beta=0, r_squared=-inf, slope=0, intercept=0, n_points, is_valid=false)`;
one record is still produced for that candidate. -/
theorem tc_scan_sentinel_record
    (hmem : tc ∈ keptCandidates tc_min tc_max tc_step)
    (hcond : (xVals log temps mags t_min t_max tc).length < 4 ∨
      fitDenom log temps mags t_min t_max tc = 0) :
    fitRecordFor log temps mags t_min t_max tc =
      ⟨tc, 0, ⊥, 0, 0, (xVals log temps mags t_min t_max tc).length, false⟩ ∧
    fitRecordFor log temps mags t_min t_max tc ∈
      (run_loglog_tc_scan log temps mags t_min t_max tc_min tc_max tc_step).1 := by
  constructor
  · rw [fitRecordFor]
    rcases hcond with h | h
    · rw [if_pos h]
    · by_cases h4 : (xVals log temps mags t_min t_max tc).length < 4
      · rw [if_pos h4]
      · rw [if_neg h4, if_pos h]
  · exact List.mem_map_of_mem (fitRecordFor log temps mags t_min t_max) hmem

/-- C2 witness: the sentinel branch at a concrete input (empty data, so zero
samples qualify for candidate `tc = 0`). -/
theorem tc_scan_sentinel_record_witness :
    fitRecordFor id [] [] 0 1 0 = ⟨0, 0, ⊥, 0, 0, (xVals id [] [] 0 1 0).length, false⟩ ∧
    fitRecordFor id [] [] 0 1 0 ∈ (run_loglog_tc_scan id [] [] 0 1 0 0 1).1 :=
  tc_scan_sentinel_record id [] [] 0 1 0 0 1 0
    (by norm_num [keptCandidates, rawCandidates, nSteps, pyRound])
    (Or.inl (by simp [xVals, fitPairs]))

/-- C4: for every emitted non-sentinel record (at least 4 samples, nonzero
denominator): beta equals slope; slope and intercept are the ordinary
least-squares values (they satisfy the two normal equations); `r_squared` is
`1 - ss_res / ss_tot`, and exactly `1` when `ss_tot = 0`; and `is_valid` holds
iff `slope > 0` and `0 < r_squared ≤ 1`. -/
theorem tc_scan_regression_fields
    (h4 : ¬ (xVals log temps mags t_min t_max tc).length < 4)
    (hd : fitDenom log temps mags t_min t_max tc ≠ 0) :
    (fitRecordFor log temps mags t_min t_max tc).beta =
      (fitRecordFor log temps mags t_min t_max tc).slope ∧
    (fitRecordFor log temps mags t_min t_max tc).slope =
      fitSlope log temps mags t_min t_max tc ∧
    (fitRecordFor log temps mags t_min t_max tc).intercept =
      fitIntercept log temps mags t_min t_max tc ∧
    (fitRecordFor log temps mags t_min t_max tc).r_squared =
      (fitR2 log temps mags t_min t_max tc : WithBot ℚ) ∧
    (fitSsTot log temps mags t_min t_max tc = 0 →
      fitR2 log temps mags t_min t_max tc = 1) ∧
    (fitSsTot log temps mags t_min t_max tc ≠ 0 →
      fitR2 log temps mags t_min t_max tc =
        1 - fitSsRes log temps mags t_min t_max tc / fitSsTot log temps mags t_min t_max tc) ∧
    ((fitRecordFor log temps mags t_min t_max tc).is_valid = true ↔
      0 < fitSlope log temps mags t_min t_max tc ∧
      0 < fitR2 log temps mags t_min t_max tc ∧ fitR2 log temps mags t_min t_max tc ≤ 1) ∧
    ((xVals log temps mags t_min t_max tc).length : ℚ) *
        fitIntercept log temps mags t_min t_max tc +
        fitSlope log temps mags t_min t_max tc * (xVals log temps mags t_min t_max tc).sum =
      (yVals log temps mags t_min t_max tc).sum ∧
    fitIntercept log temps mags t_min t_max tc * (xVals log temps mags t_min t_max tc).sum +
        fitSlope log temps mags t_min t_max tc *
          ((xVals log temps mags t_min t_max tc).map fun x => x * x).sum =
      (((xVals log temps mags t_min t_max tc).zip (yVals log temps mags t_min t_max tc)).map
        fun p => p.1 * p.2).sum := by
  have hrec : fitRecordFor log temps mags t_min t_max tc =
      ⟨tc, fitSlope log temps mags t_min t_max tc,
        (fitR2 log temps mags t_min t_max tc : WithBot ℚ),
        fitSlope log temps mags t_min t_max tc,
        fitIntercept log temps mags t_min t_max tc,
        (xVals log temps mags t_min t_max tc).length,
        decide (0 < fitSlope log temps mags t_min t_max tc) &&
          decide (0 < fitR2 log temps mags t_min t_max tc) &&
          decide (fitR2 log temps mags t_min t_max tc ≤ 1)⟩ := by
    rw [fitRecordFor, if_neg h4, if_neg hd]
  have hn : ((xVals log temps mags t_min t_max tc).length : ℚ) ≠ 0 := by
    have h : 4 ≤ (xVals log temps mags t_min t_max tc).length := not_lt.mp h4
    have hz : (xVals log temps mags t_min t_max tc).length ≠ 0 := by omega
    exact_mod_cast hz
  refine ⟨by rw [hrec], by rw [hrec], by rw [hrec], by rw [hrec], ?_, ?_, ?_, ?_, ?_⟩
  · intro h
    rw [fitR2, if_pos h]
  · intro h
    rw [fitR2, if_neg h]
  · rw [hrec]
    simp [Bool.and_assoc]
  · rw [fitIntercept]
    field_simp
  · have hd2 : ((xVals log temps mags t_min t_max tc).length : ℚ) *
        ((xVals log temps mags t_min t_max tc).map fun x => x * x).sum -
        (xVals log temps mags t_min t_max tc).sum *
          (xVals log temps mags t_min t_max tc).sum ≠ 0 := hd
    rw [fitIntercept, fitSlope, fitDenom]
    field_simp
    ring

set_option maxRecDepth 8000 in
/-- C4 witness: the regression branch at a concrete input with 4 samples on
the line `y = 2 x + 1` (via `log := id`), where the denominator is nonzero. -/
theorem tc_scan_regression_fields_witness :
    (fitRecordFor id [0, 1, 2, 3] [11, 9, 7, 5] 0 10 5).beta =
      (fitRecordFor id [0, 1, 2, 3] [11, 9, 7, 5] 0 10 5).slope ∧
    ((xVals id [0, 1, 2, 3] [11, 9, 7, 5] 0 10 5).length : ℚ) *
        fitIntercept id [0, 1, 2, 3] [11, 9, 7, 5] 0 10 5 +
        fitSlope id [0, 1, 2, 3] [11, 9, 7, 5] 0 10 5 *
          (xVals id [0, 1, 2, 3] [11, 9, 7, 5] 0 10 5).sum =
      (yVals id [0, 1, 2, 3] [11, 9, 7, 5] 0 10 5).sum := by
  have h := tc_scan_regression_fields id [0, 1, 2, 3] [11, 9, 7, 5] 0 10 5
    (by norm_num [xVals, fitPairs])
    (by norm_num [fitDenom, xVals, fitPairs])
  exact ⟨h.1, h.2.2.2.2.2.2.2.1⟩

end ScanTheorems

lemma bestStep_guard_iff (r : FitRecord) :
    (¬ r.is_valid = true ∨ r.r_squared = ⊥ ∨ r.r_squared ≤ 0) ↔ ¬ qualifies r := by
  rw [qualifies]
  simp only [not_and_or, not_not, not_lt]

lemma bestStep_skip (acc : Option FitRecord) (r : FitRecord) (hq : ¬ qualifies r) :
    bestStep acc r = acc := by
  rw [bestStep.eq_def, if_pos ((bestStep_guard_iff r).mpr hq)]

lemma bestStep_none_of_qual (r : FitRecord) (hq : qualifies r) : bestStep none r = some r := by
  rw [bestStep.eq_def, if_neg (fun g => (bestStep_guard_iff r).mp g hq)]

lemma bestStep_some_lt (b r : FitRecord) (hq : qualifies r)
    (hlt : b.r_squared < r.r_squared) : bestStep (some b) r = some r := by
  rw [bestStep.eq_def, if_neg (fun g => (bestStep_guard_iff r).mp g hq)]
  show (if b.r_squared < r.r_squared then some r else some b) = some r
  rw [if_pos hlt]

lemma bestStep_some_ge (b r : FitRecord) (hq : qualifies r)
    (hge : ¬ b.r_squared < r.r_squared) : bestStep (some b) r = some b := by
  rw [bestStep.eq_def, if_neg (fun g => (bestStep_guard_iff r).mp g hq)]
  show (if b.r_squared < r.r_squared then some r else some b) = some b
  rw [if_neg hge]

/-- The invariant maintained by the best-selection loop over the processed
prefix `l`: either no processed record qualifies and the accumulator is `none`,
or the accumulator holds a qualifying record that strictly beats every earlier
qualifying record and is at least as good as every later one. -/
def isBestOf (l : List FitRecord) : Option FitRecord → Prop
  | none => ∀ r ∈ l, ¬ qualifies r
  | some b => ∃ l₁ l₂, l = l₁ ++ b :: l₂ ∧ qualifies b ∧
      (∀ r ∈ l₁, qualifies r → r.r_squared < b.r_squared) ∧
      (∀ r ∈ l₂, qualifies r → r.r_squared ≤ b.r_squared)

lemma isBestOf_step (done : List FitRecord) (acc : Option FitRecord) (r : FitRecord)
    (h : isBestOf done acc) : isBestOf (done ++ [r]) (bestStep acc r) := by
  by_cases hq : qualifies r
  · cases acc with
    | none =>
      rw [bestStep_none_of_qual r hq]
      refine ⟨done, [], rfl, hq, ?_, by simp⟩
      intro x hx hqx
      exact absurd hqx (h x hx)
    | some b =>
      obtain ⟨l₁, l₂, hsplit, hqb, hlt, hle⟩ := h
      by_cases hcmp : b.r_squared < r.r_squared
      · rw [bestStep_some_lt b r hq hcmp]
        refine ⟨done, [], rfl, hq, ?_, by simp⟩
        intro x hx hqx
        rw [hsplit] at hx
        rcases List.mem_append.mp hx with h1 | h2
        · exact lt_trans (hlt x h1 hqx) hcmp
        · rcases List.mem_cons.mp h2 with rfl | h3
          · exact hcmp
          · exact lt_of_le_of_lt (hle x h3 hqx) hcmp
      · rw [bestStep_some_ge b r hq hcmp]
        refine ⟨l₁, l₂ ++ [r], by rw [hsplit]; simp, hqb, hlt, ?_⟩
        intro x hx hqx
        rcases List.mem_append.mp hx with h1 | h2
        · exact hle x h1 hqx
        · rw [List.mem_singleton.mp h2]
          exact not_lt.mp hcmp
  · rw [bestStep_skip acc r hq]
    cases acc with
    | none =>
      intro x hx
      rcases List.mem_append.mp hx with h1 | h2
      · exact h x h1
      · rw [List.mem_singleton.mp h2]
        exact hq
    | some b =>
      obtain ⟨l₁, l₂, hsplit, hqb, hlt, hle⟩ := h
      refine ⟨l₁, l₂ ++ [r], by rw [hsplit]; simp, hqb, hlt, ?_⟩
      intro x hx hqx
      rcases List.mem_append.mp hx with h1 | h2
      · exact hle x h1 hqx
      · rw [List.mem_singleton.mp h2] at hqx
        exact absurd hqx hq

lemma isBestOf_foldl : ∀ (l done : List FitRecord) (acc : Option FitRecord),
    isBestOf done acc → isBestOf (done ++ l) (l.foldl bestStep acc)
  | [], done, acc, h => by simpa using h
  | r :: l, done, acc, h => by
    have h3 := isBestOf_foldl l (done ++ [r]) (bestStep acc r) (isBestOf_step done acc r h)
    simpa [List.append_assoc] using h3

section BestTheorems

variable (log : ℚ → ℚ) (temps mags : List ℚ) (t_min t_max tc_min tc_max tc_step : ℚ)

/-- C1: the best fit returned by the Tc scan is the first record, in scan
order, attaining the maximal `r_squared` among records with `is_valid = true`
and finite, positive `r_squared` (every earlier qualifying record is strictly
worse, every later one no better); if no record qualifies the best is `none`;
consequently the best, when present, is valid with finite positive `r_squared`. -/
theorem tc_scan_best_first_max (results : List FitRecord) (best : Option FitRecord)
    (h : run_loglog_tc_scan log temps mags t_min t_max tc_min tc_max tc_step =
      (results, best)) :
    (best = none ↔ ∀ r ∈ results, ¬ qualifies r) ∧
    ∀ b, best = some b →
      b.is_valid = true ∧ b.r_squared ≠ ⊥ ∧ 0 < b.r_squared ∧
      ∃ l₁ l₂, results = l₁ ++ b :: l₂ ∧
        (∀ r ∈ l₁, qualifies r → r.r_squared < b.r_squared) ∧
        (∀ r ∈ l₂, qualifies r → r.r_squared ≤ b.r_squared) := by
  have hres : results =
      (keptCandidates tc_min tc_max tc_step).map (fitRecordFor log temps mags t_min t_max) :=
    (congrArg Prod.fst h).symm
  have hbest : best =
      ((keptCandidates tc_min tc_max tc_step).map
        (fitRecordFor log temps mags t_min t_max)).foldl bestStep none :=
    (congrArg Prod.snd h).symm
  rw [← hres] at hbest
  have hbo : isBestOf results (results.foldl bestStep none) := by
    have h0 : isBestOf ([] : List FitRecord) none := by
      intro x hx
      exact absurd hx (List.not_mem_nil x)
    simpa using isBestOf_foldl results [] none h0
  rw [← hbest] at hbo
  constructor
  · constructor
    · intro hn
      rw [hn] at hbo
      exact hbo
    · intro hall
      cases hb : best with
      | none => rfl
      | some b =>
        rw [hb] at hbo
        obtain ⟨l₁, l₂, hsplit, hqb, _, _⟩ := hbo
        have hmem : b ∈ results := by
          rw [hsplit]
          exact List.mem_append_right l₁ (List.mem_cons_self b l₂)
        exact absurd hqb (hall b hmem)
  · intro b hb
    rw [hb] at hbo
    obtain ⟨l₁, l₂, hsplit, hqb, hlt, hle⟩ := hbo
    exact ⟨hqb.1, hqb.2.1, hqb.2.2, l₁, l₂, hsplit, hlt, hle⟩

/-- C1 witness: the best-selection characterization at a concrete input. -/
theorem tc_scan_best_first_max_witness :
    ((run_loglog_tc_scan id [] [] 0 1 0 0 1).2 = none ↔
      ∀ r ∈ (run_loglog_tc_scan id [] [] 0 1 0 0 1).1, ¬ qualifies r) ∧
    ∀ b, (run_loglog_tc_scan id [] [] 0 1 0 0 1).2 = some b →
      b.is_valid = true ∧ b.r_squared ≠ ⊥ ∧ 0 < b.r_squared ∧
      ∃ l₁ l₂, (run_loglog_tc_scan id [] [] 0 1 0 0 1).1 = l₁ ++ b :: l₂ ∧
        (∀ r ∈ l₁, qualifies r → r.r_squared < b.r_squared) ∧
        (∀ r ∈ l₂, qualifies r → r.r_squared ≤ b.r_squared) :=
  tc_scan_best_first_max id [] [] 0 1 0 0 1 _ _ rfl

lemma fitRecordFor_tc (tc : ℚ) : (fitRecordFor log temps mags t_min t_max tc).tc = tc := by
  rw [fitRecordFor]
  split
  · rfl
  · split
    · rfl
    · rfl

/-- C9: the Tc scan iterates candidates `tc = tc_min + i * tc_step` for integer
`i` from `0` to `n_steps` inclusive, `n_steps = round((tc_max - tc_min)/tc_step)`,
emitting no record for a candidate outside `[tc_min, tc_max]`; hence every
record of the table has `tc_min ≤ tc ≤ tc_max`, and every in-range grid
candidate contributes its record to the table. -/
theorem tc_scan_candidate_grid :
    (∀ r ∈ (run_loglog_tc_scan log temps mags t_min t_max tc_min tc_max tc_step).1,
      (tc_min ≤ r.tc ∧ r.tc ≤ tc_max) ∧
      ∃ i : ℕ, (i : ℤ) ≤ nSteps tc_min tc_max tc_step ∧ r.tc = tc_min + (i : ℚ) * tc_step) ∧
    ∀ i : ℕ, (i : ℤ) ≤ nSteps tc_min tc_max tc_step →
      tc_min ≤ tc_min + (i : ℚ) * tc_step → tc_min + (i : ℚ) * tc_step ≤ tc_max →
      fitRecordFor log temps mags t_min t_max (tc_min + (i : ℚ) * tc_step) ∈
        (run_loglog_tc_scan log temps mags t_min t_max tc_min tc_max tc_step).1 := by
  constructor
  · intro r hr
    obtain ⟨c, hc, hrc⟩ := List.mem_map.mp hr
    obtain ⟨hraw, hdec⟩ := List.mem_filter.mp hc
    rw [decide_eq_true_eq, not_or, not_lt, not_lt] at hdec
    rw [rawCandidates] at hraw
    obtain ⟨i, hi, hic⟩ := List.mem_map.mp hraw
    rw [List.mem_range] at hi
    have hile : (i : ℤ) ≤ nSteps tc_min tc_max tc_step := by
      have h2 : (i : ℤ) < nSteps tc_min tc_max tc_step + 1 := Int.lt_toNat.mp hi
      omega
    have htc : r.tc = c := by
      rw [← hrc, fitRecordFor_tc]
    rw [htc]
    exact ⟨⟨hdec.1, hdec.2⟩, i, hile, hic.symm⟩
  · intro i hle h1 h2
    apply List.mem_map_of_mem
    rw [keptCandidates, List.mem_filter]
    constructor
    · rw [rawCandidates, List.mem_map]
      refine ⟨i, List.mem_range.mpr (Int.lt_toNat.mpr (by omega)), rfl⟩
    · rw [decide_eq_true_eq, not_or, not_lt, not_lt]
      exact ⟨h1, h2⟩

/-- C9 witness: the grid characterization at a concrete input, with the
record for `i = 1` present in the table. -/
theorem tc_scan_candidate_grid_witness :
    fitRecordFor id [] [] 0 1 ((0 : ℚ) + ((1 : ℕ) : ℚ) * 1) ∈
      (run_loglog_tc_scan id [] [] 0 1 0 1 1).1 :=
  (tc_scan_candidate_grid id [] [] 0 1 0 1 1).2 1
    (by norm_num [nSteps, pyRound]) (by norm_num) (by norm_num)

end BestTheorems

lemma mem_dedupFirst : ∀ (l acc : List ℕ) (x : ℕ), x ∈ dedupFirst acc l → x ∈ acc ∨ x ∈ l
  | [], _, _, h => Or.inl h
  | y :: l, acc, x, h => by
    rw [dedupFirst] at h
    by_cases hy : y ∈ acc
    · rw [if_pos hy] at h
      rcases mem_dedupFirst l acc x h with h1 | h2
      · exact Or.inl h1
      · exact Or.inr (List.mem_cons_of_mem y h2)
    · rw [if_neg hy] at h
      rcases mem_dedupFirst l (acc ++ [y]) x h with h1 | h2
      · rcases List.mem_append.mp h1 with ha | hb
        · exact Or.inl ha
        · exact Or.inr (List.mem_cons.mpr (Or.inl (List.mem_singleton.mp hb)))
      · exact Or.inr (List.mem_cons_of_mem y h2)

lemma mem_rankedPeaks (values : List ℚ) (i : ℕ) (h : i ∈ rankedPeaks values) :
    i ∈ rawPeaks values := by
  rw [rankedPeaks] at h
  rcases mem_dedupFirst _ [] i h with h1 | h2
  · exact absurd h1 (List.not_mem_nil i)
  · exact (List.perm_insertionSort _ _).mem_iff.mp h2

/-- C5 (amended): for every input series of length at least 2, the Peak
Detector never selects a peak at an index less than 5: every index surviving
ranking (hence any slot candidate) is at least 5. -/
theorem peak_min_index (values : List ℚ) (h2 : 2 ≤ values.length) :
    ∀ i ∈ (rankedPeaks values).take 2, 5 ≤ i := by
  intro i hi
  have hr : i ∈ rawPeaks values := mem_rankedPeaks values i (List.take_subset 2 _ hi)
  rw [rawPeaks, if_neg (by omega)] at hr
  obtain ⟨-, hdec⟩ := List.mem_filter.mp hr
  rw [decide_eq_true_eq] at hdec
  exact hdec.2.2.2.1

/-- C5 witness: the bound instantiated at a concrete series of length 2
(whose candidate list is empty, as its values are non-positive). -/
theorem peak_min_index_witness :
    (rankedPeaks [(0 : ℚ), 0]).take 2 = [] ∧
    ∀ i ∈ (rankedPeaks [(0 : ℚ), 0]).take 2, 5 ≤ i :=
  ⟨by decide, peak_min_index [0, 0] (by decide)⟩

/-- C5 counterexample: for the single-element series `[1]` the selected peak
sits at index `0 < 5` (and the detector reports its interval in the first
slot), so the claim is false for series of length 1. -/
theorem peak_min_index_cex :
    (rankedPeaks [(1 : ℚ)]).take 2 = [0] ∧
    two_peak_half_intervals [(1 : ℚ)] [3] = [some (3, 3), none] := by
  refine ⟨by decide, ?_⟩
  have hne : ¬ ([(1 : ℚ)].length = 0) := by simp
  rw [two_peak_half_intervals, if_neg hne]
  have hrp : rankedPeaks [(1 : ℚ)] = [0] := rfl
  rw [hrp]
  show [slotInterval [(1 : ℚ)] [3] 0, none] = [some (3, 3), none]
  have hg0 : [(1 : ℚ)].getD 0 0 = 1 := rfl
  rw [slotInterval, hg0, if_neg (by norm_num)]
  have hwl : walkLeft [(1 : ℚ)] (1 / 2) 0 = 0 := rfl
  have hwr : walkRight [(1 : ℚ)] (1 / 2) ([(1 : ℚ)].length - 1) 0 = 0 := by
    rw [walkRight]
    simp
  rw [hwl, hwr]
  rfl

/-- C6 counterexample: for the single-element series with value `0` the
detector returns `[None, None]`, not the claimed sole-peak interval. -/
theorem peak_singleton_cex :
    two_peak_half_intervals [(0 : ℚ)] [1] = [none, none] := by decide

/-- C6 (amended): for every single-element series with positive value the Peak
Detector returns that element as the sole peak with interval
`(temps[0], temps[0])` in the first slot and `None` in the second; for every
empty series it returns `[None, None]`. -/
theorem peak_singleton_empty (v t : ℚ) (hv : 0 < v) :
    two_peak_half_intervals [v] [t] = [some (t, t), none] ∧
    ∀ temps : List ℚ, two_peak_half_intervals [] temps = [none, none] := by
  constructor
  · have hne : ¬ ([v].length = 0) := by simp
    rw [two_peak_half_intervals, if_neg hne]
    have hrp : rankedPeaks [v] = [0] := rfl
    rw [hrp]
    show [slotInterval [v] [t] 0, none] = [some (t, t), none]
    have hg0 : [v].getD 0 0 = v := rfl
    rw [slotInterval, hg0, if_neg (not_le.mpr hv)]
    have hwl : walkLeft [v] (v / 2) 0 = 0 := rfl
    have hwr : walkRight [v] (v / 2) ([v].length - 1) 0 = 0 := by
      rw [walkRight]
      simp
    rw [hwl, hwr]
    rfl
  · intro temps
    rfl

/-- C6 witness: the singleton and empty cases at concrete inputs. -/
theorem peak_singleton_empty_witness :
    two_peak_half_intervals [(2 : ℚ)] [7] = [some (7, 7), none] ∧
    ∀ temps : List ℚ, two_peak_half_intervals [] temps = [none, none] :=
  peak_singleton_empty 2 7 (by norm_num)

lemma walkLeft_spec (values : List ℚ) (half : ℚ) :
    ∀ i, half ≤ values.getD i 0 →
      half ≤ values.getD (walkLeft values half i) 0 ∧
      (walkLeft values half i = 0 ∨ values.getD (walkLeft values half i - 1) 0 < half)
  | 0, h => by
    rw [walkLeft]
    exact ⟨h, Or.inl rfl⟩
  | i + 1, h => by
    rw [walkLeft]
    by_cases hc : half ≤ values.getD i 0
    · rw [if_pos hc]
      exact walkLeft_spec values half i hc
    · rw [if_neg hc]
      refine ⟨h, Or.inr ?_⟩
      simpa using not_le.mp hc

lemma walkRight_spec_aux (values : List ℚ) (half : ℚ) (last : ℕ) :
    ∀ (d i : ℕ), last - i = d → i ≤ last → half ≤ values.getD i 0 →
      i ≤ walkRight values half last i ∧ walkRight values half last i ≤ last ∧
      half ≤ values.getD (walkRight values half last i) 0 ∧
      (walkRight values half last i = last ∨
        values.getD (walkRight values half last i + 1) 0 < half)
  | 0, i, hd, hle, hh => by
    rw [walkRight]
    have hc : ¬ (i < last ∧ half ≤ values.getD (i + 1) 0) := by
      intro hcon
      omega
    rw [dif_neg hc]
    exact ⟨le_refl i, hle, hh, Or.inl (by omega)⟩
  | d + 1, i, hd, hle, hh => by
    rw [walkRight]
    by_cases hc : i < last ∧ half ≤ values.getD (i + 1) 0
    · rw [dif_pos hc]
      have hrec := walkRight_spec_aux values half last d (i + 1) (by omega) (by omega) hc.2
      exact ⟨le_trans (Nat.le_succ i) hrec.1, hrec.2.1, hrec.2.2.1, hrec.2.2.2⟩
    · rw [dif_neg hc]
      refine ⟨le_refl i, hle, hh, ?_⟩
      rcases not_and_or.mp hc with h1 | h2
      · exact Or.inl (by omega)
      · exact Or.inr (not_le.mp h2)

/-- C7: whenever the Peak Detector produces a half-maximum interval, with
`half = peak_value / 2` the chosen bound indices satisfy
`values[left] ≥ half` and (`left = 0` or `values[left-1] < half`), and
`values[right] ≥ half` and (`right = n-1` or `values[right+1] < half`), and
the reported interval is the pair of temperatures at those bounds. -/
theorem half_interval_bounds (values temps : List ℚ) (idx : ℕ) (p : ℚ × ℚ)
    (h : slotInterval values temps idx = some p) :
    p = (temps.getD (walkLeft values (values.getD idx 0 / 2) idx) 0,
      temps.getD (walkRight values (values.getD idx 0 / 2) (values.length - 1) idx) 0) ∧
    values.getD idx 0 / 2 ≤ values.getD (walkLeft values (values.getD idx 0 / 2) idx) 0 ∧
    (walkLeft values (values.getD idx 0 / 2) idx = 0 ∨
      values.getD (walkLeft values (values.getD idx 0 / 2) idx - 1) 0 <
        values.getD idx 0 / 2) ∧
    values.getD idx 0 / 2 ≤
      values.getD (walkRight values (values.getD idx 0 / 2) (values.length - 1) idx) 0 ∧
    (walkRight values (values.getD idx 0 / 2) (values.length - 1) idx = values.length - 1 ∨
      values.getD (walkRight values (values.getD idx 0 / 2) (values.length - 1) idx + 1) 0 <
        values.getD idx 0 / 2) := by
  have hpos : 0 < values.getD idx 0 := by
    by_contra hn
    rw [slotInterval, if_pos (not_lt.mp hn)] at h
    exact Option.noConfusion h
  have hp : slotInterval values temps idx =
      some (temps.getD (walkLeft values (values.getD idx 0 / 2) idx) 0,
        temps.getD (walkRight values (values.getD idx 0 / 2) (values.length - 1) idx) 0) := by
    rw [slotInterval, if_neg (not_le.mpr hpos)]
  have hpe : p = (temps.getD (walkLeft values (values.getD idx 0 / 2) idx) 0,
      temps.getD (walkRight values (values.getD idx 0 / 2) (values.length - 1) idx) 0) :=
    (Option.some.inj (hp ▸ h)).symm
  have hhalf : values.getD idx 0 / 2 ≤ values.getD idx 0 := half_le_self (le_of_lt hpos)
  have hidx : idx < values.length := by
    by_contra hn
    rw [List.getD_eq_default values 0 (not_lt.mp hn)] at hpos
    exact lt_irrefl 0 hpos
  have hwl := walkLeft_spec values (values.getD idx 0 / 2) idx hhalf
  have hwr := walkRight_spec_aux values (values.getD idx 0 / 2) (values.length - 1)
    (values.length - 1 - idx) idx rfl (by omega) hhalf
  exact ⟨hpe, hwl.1, hwl.2, hwr.2.2.1, hwr.2.2.2⟩

/-- C7 witness: the bounds at the concrete single-element peak `[4]` at
index `0`, whose interval is `(9, 9)`. -/
theorem half_interval_bounds_witness :
    ((9 : ℚ), (9 : ℚ)) = ([(9 : ℚ)].getD
        (walkLeft [(4 : ℚ)] ([(4 : ℚ)].getD 0 0 / 2) 0) 0,
      [(9 : ℚ)].getD
        (walkRight [(4 : ℚ)] ([(4 : ℚ)].getD 0 0 / 2) ([(4 : ℚ)].length - 1) 0) 0) ∧
    [(4 : ℚ)].getD 0 0 / 2 ≤ [(4 : ℚ)].getD
      (walkLeft [(4 : ℚ)] ([(4 : ℚ)].getD 0 0 / 2) 0) 0 ∧
    (walkLeft [(4 : ℚ)] ([(4 : ℚ)].getD 0 0 / 2) 0 = 0 ∨
      [(4 : ℚ)].getD (walkLeft [(4 : ℚ)] ([(4 : ℚ)].getD 0 0 / 2) 0 - 1) 0 <
        [(4 : ℚ)].getD 0 0 / 2) ∧
    [(4 : ℚ)].getD 0 0 / 2 ≤ [(4 : ℚ)].getD
      (walkRight [(4 : ℚ)] ([(4 : ℚ)].getD 0 0 / 2) ([(4 : ℚ)].length - 1) 0) 0 ∧
    (walkRight [(4 : ℚ)] ([(4 : ℚ)].getD 0 0 / 2) ([(4 : ℚ)].length - 1) 0 =
        [(4 : ℚ)].length - 1 ∨
      [(4 : ℚ)].getD
        (walkRight [(4 : ℚ)] ([(4 : ℚ)].getD 0 0 / 2) ([(4 : ℚ)].length - 1) 0 + 1) 0 <
        [(4 : ℚ)].getD 0 0 / 2) := by
  have hg0 : [(4 : ℚ)].getD 0 0 = 4 := rfl
  have hp : slotInterval [(4 : ℚ)] [(9 : ℚ)] 0 = some (9, 9) := by
    rw [slotInterval, hg0, if_neg (by norm_num)]
    have hwl : walkLeft [(4 : ℚ)] (4 / 2) 0 = 0 := rfl
    have hwr : walkRight [(4 : ℚ)] (4 / 2) ([(4 : ℚ)].length - 1) 0 = 0 := by
      rw [walkRight]
      simp
    rw [hwl, hwr]
    rfl
  exact half_interval_bounds [(4 : ℚ)] [(9 : ℚ)] 0 (9, 9) hp

/-- C10: whenever the strength check divides by `len(values[:i])` (which the
`i ≥ 5` guard makes possible only for `5 ≤ i < len(values)`), the slice is
non-empty, so the division defining `mean_left` is by a nonzero count and
`mean_left` genuinely averages the slice. -/
theorem mean_left_defined (values : List ℚ) (i : ℕ) (h5 : 5 ≤ i)
    (hlen : i < values.length) :
    ((values.take i).length : ℚ) ≠ 0 ∧
    meanLeft values i * ((values.take i).length : ℚ) = (values.take i).sum := by
  have hl : (values.take i).length = i := by
    rw [List.length_take]
    omega
  have hne : ((values.take i).length : ℚ) ≠ 0 := by
    rw [hl]
    exact_mod_cast (by omega : i ≠ 0)
  refine ⟨hne, ?_⟩
  rw [meanLeft]
  exact div_mul_cancel₀ (values.take i).sum hne

/-- C10 witness: the division is well defined at `i = 5` in a series of
length 6. -/
theorem mean_left_defined_witness :
    (([(0 : ℚ), 0, 0, 0, 0, 1].take 5).length : ℚ) ≠ 0 ∧
    meanLeft [0, 0, 0, 0, 0, 1] 5 * (([(0 : ℚ), 0, 0, 0, 0, 1].take 5).length : ℚ) =
      ([(0 : ℚ), 0, 0, 0, 0, 1].take 5).sum :=
  mean_left_defined [0, 0, 0, 0, 0, 1] 5 (by decide) (by decide)

lemma foldl_min_le (l : List ℚ) : ∀ a : ℚ, l.foldl min a ≤ a := by
  induction l with
  | nil => exact fun a => le_refl a
  | cons b l ih => exact fun a => le_trans (ih (min a b)) (min_le_left a b)

lemma le_foldl_max (l : List ℚ) : ∀ a : ℚ, a ≤ l.foldl max a := by
  induction l with
  | nil => exact fun a => le_refl a
  | cons b l ih => exact fun a => le_trans (le_max_left a b) (ih (max a b))

lemma windowLefts_eq (ints : List (Option (ℚ × ℚ))) :
    windowLefts ints = (ints.filterMap id).map Prod.fst := by
  induction ints with
  | nil => rfl
  | cons o l ih =>
    cases o with
    | none => simpa [windowLefts, List.filterMap_cons] using ih
    | some q => simpa [windowLefts, List.filterMap_cons] using ih

lemma windowRights_eq (ints : List (Option (ℚ × ℚ))) :
    windowRights ints = (ints.filterMap id).map Prod.snd := by
  induction ints with
  | nil => rfl
  | cons o l ih =>
    cases o with
    | none => simpa [windowRights, List.filterMap_cons] using ih
    | some q => simpa [windowRights, List.filterMap_cons] using ih

/-- C8 (amended): for every input list of optional intervals with at least one
present, provided every present interval `(l, r)` satisfies `l ≤ r`, the
Window Builder returns a window with `t_env_min ≤ t_env_max` and
`tc_ov_min ≤ tc_ov_max`, and when the raw overlap is empty
(max of lefts exceeds min of rights) the overlap bounds fall back exactly to
the envelope bounds. -/
theorem window_invariant (ints : List (Option (ℚ × ℚ))) (l0 r0 : ℚ) (ls rs : List ℚ)
    (hL : windowLefts ints = l0 :: ls) (hR : windowRights ints = r0 :: rs)
    (hwf : ∀ q ∈ ints.filterMap id, q.1 ≤ q.2) :
    ∃ w, build_window ints = some w ∧ w.1 ≤ w.2.1 ∧ w.2.2.1 ≤ w.2.2.2 ∧
      (rs.foldl min r0 < ls.foldl max l0 → w.2.2.1 = w.1 ∧ w.2.2.2 = w.2.1) := by
  have hl0r0 : l0 ≤ r0 := by
    rw [windowLefts_eq] at hL
    rw [windowRights_eq] at hR
    cases hfm : ints.filterMap id with
    | nil =>
      rw [hfm] at hL
      exact absurd hL (by simp)
    | cons q qs =>
      rw [hfm, List.map_cons] at hL hR
      have hq : q.1 ≤ q.2 := hwf q (by rw [hfm]; exact List.mem_cons_self q qs)
      have h1 : q.1 = l0 := (List.cons.injEq _ _ _ _ ▸ hL).1
      have h2 : q.2 = r0 := (List.cons.injEq _ _ _ _ ▸ hR).1
      rw [← h1, ← h2]
      exact hq
  have henv : ls.foldl min l0 ≤ rs.foldl max r0 :=
    le_trans (foldl_min_le ls l0) (le_trans hl0r0 (le_foldl_max rs r0))
  have hbw : build_window ints =
      (if ls.foldl max l0 ≤ rs.foldl min r0 then
        some (ls.foldl min l0, rs.foldl max r0, ls.foldl max l0, rs.foldl min r0)
      else some (ls.foldl min l0, rs.foldl max r0, ls.foldl min l0, rs.foldl max r0)) := by
    rw [build_window.eq_def, hL, hR]
  by_cases hov : ls.foldl max l0 ≤ rs.foldl min r0
  · rw [hbw, if_pos hov]
    exact ⟨_, rfl, henv, hov, fun hcon => absurd hov (not_le.mpr hcon)⟩
  · rw [hbw, if_neg hov]
    exact ⟨_, rfl, henv, henv, fun _ => ⟨rfl, rfl⟩⟩

/-- C8 witness: two present disjoint well-formed intervals; the overlap falls
back to the envelope. -/
theorem window_invariant_witness :
    ∃ w, build_window [some ((1 : ℚ), 2), some (5, 6)] = some w ∧
      w.1 ≤ w.2.1 ∧ w.2.2.1 ≤ w.2.2.2 ∧
      ([(6 : ℚ)].foldl min 2 < [(5 : ℚ)].foldl max 1 → w.2.2.1 = w.1 ∧ w.2.2.2 = w.2.1) :=
  window_invariant [some (1, 2), some (5, 6)] 1 2 [5] [6] rfl rfl (by decide)

/-- C8 counterexample: a single present reversed interval `(5, 1)` yields the
window `(5, 1, 5, 1)`, violating both claimed inequalities. -/
theorem window_invariant_cex :
    build_window [some ((5 : ℚ), 1)] = some (5, 1, 5, 1) ∧ ¬ ((5 : ℚ) ≤ 1) := by decide
